import Mathlib

/-!
Verification of the entity detection, deduplication and redaction core of the
`radact_c_sharp` repository (Python sources under `src/python`).

The Python code is shallowly embedded: Python `str` becomes `List Char` (or
`String` for opaque field values), Python `int` becomes `ℤ`, Python `float`
confidence scores become `ℚ` (only ordering and equality of confidences matter
to the algorithms), Python lists become `List`, and Python's stable `sorted`
with a key function becomes Mathlib's stable `List.insertionSort` with the
corresponding key ordering.  Fallible code paths are represented with explicit
outcome types (`Except`, dedicated outcome inductives).
-/

/-- PII entity of `src/python/LLM/gpt4o_redactor.py` (`PIIEntity` dataclass):
`text`, `category`, `confidence`, `start_pos`, `end_pos`, `context`,
`reasoning`. -/
structure GptEntity where
  text : String
  category : String
  confidence : ℚ
  start_pos : ℤ
  end_pos : ℤ
  context : String
  reasoning : String
  deriving DecidableEq, Repr

/-- PII entity of `src/python/NLP/azure_ai_redactor.py` (`PIIEntity` dataclass)
and of `src/python/NLP/demo_redactor.py` (`DemoPIIEntity`, identical fields):
`text`, `category`, `subcategory`, `confidence_score`, `offset`, `length`. -/
structure AzEntity where
  text : String
  category : String
  subcategory : Option String
  confidence_score : ℚ
  offset : ℤ
  length : ℤ
  deriving DecidableEq, Repr

/-- Key ordering of `sorted(entities, key=lambda x: x.start_pos)` in
`GPT4oMiniRedactor._deduplicate_entities` (gpt4o_redactor.py line 300). -/
def gptStartLe (a b : GptEntity) : Prop := a.start_pos ≤ b.start_pos

instance : DecidableRel gptStartLe := fun a b => by
  unfold gptStartLe; infer_instance

instance : IsTotal GptEntity gptStartLe :=
  ⟨fun a b => le_total a.start_pos b.start_pos⟩

instance : IsTrans GptEntity gptStartLe :=
  ⟨fun _ _ _ h h2 => le_trans h h2⟩

/-- Overlap test of `_deduplicate_entities` (gpt4o_redactor.py lines 307-308):
`entity.start_pos < existing.end_pos and entity.end_pos > existing.start_pos`,
with `a` playing `entity` and `b` playing `existing`. -/
def gptOverlap (a b : GptEntity) : Prop :=
  a.start_pos < b.end_pos ∧ a.end_pos > b.start_pos

instance : DecidableRel gptOverlap := fun a b => by
  unfold gptOverlap; infer_instance

/-- One iteration of the accumulation loop of `_deduplicate_entities`
(gpt4o_redactor.py lines 303-317): scan the accepted list `acc` for the first
entity overlapping `e`; if one is found and `e` has strictly higher confidence,
`acc.remove(existing)` then `acc.append(e)`; on overlap without higher
confidence `acc` is unchanged (`break` after setting `overlap_found`); if
nothing overlaps, `e` is appended at the end. -/
def gptInsert : List GptEntity → GptEntity → List GptEntity
  | [], e => [e]
  | x :: xs, e =>
      if gptOverlap e x then
        if e.confidence > x.confidence then xs ++ [e] else x :: xs
      else
        x :: gptInsert xs e

/-- The full `GPT4oMiniRedactor._deduplicate_entities` (gpt4o_redactor.py
lines 294-319): early return on the empty list, sort by `start_pos`, run the
overlap/replace loop, then re-sort the result by `start_pos`. -/
def gptDedup (entities : List GptEntity) : List GptEntity :=
  if entities.isEmpty then entities
  else
    List.insertionSort gptStartLe
      (((List.insertionSort gptStartLe entities).foldl gptInsert []))

/-- Key ordering of `sorted(combined_entities, key=lambda x: -x.confidence_score)`
in `AzureAIRedactor.detect_pii_entities` (azure_ai_redactor.py line 152):
confidence descending, ties in original list order (Python sort is stable). -/
def azConfGe (a b : AzEntity) : Prop := b.confidence_score ≤ a.confidence_score

instance : DecidableRel azConfGe := fun a b => by
  unfold azConfGe; infer_instance

instance : IsTotal AzEntity azConfGe :=
  ⟨fun a b => le_total b.confidence_score a.confidence_score⟩

instance : IsTrans AzEntity azConfGe :=
  ⟨fun _ _ _ h h2 => le_trans h2 h⟩

/-- The half-open index range `range(start, stop)` of a Python `range` turned
into a set, as used by the overlap tests of azure_ai_redactor.py. -/
def pyRange (start stop : ℤ) : Finset ℤ := Finset.Ico start stop

/-- Overlap test of the hybrid merge loop (azure_ai_redactor.py lines 156-159):
`len(set(entity_range) & set(range(start, end))) > 0` where `entity_range =
range(entity.offset, entity.offset + entity.length)`. -/
def azRangeOverlap (e : AzEntity) (r : ℤ × ℤ) : Prop :=
  0 < (pyRange e.offset (e.offset + e.length) ∩ pyRange r.1 r.2).card

instance (e : AzEntity) (r : ℤ × ℤ) : Decidable (azRangeOverlap e r) := by
  unfold azRangeOverlap; infer_instance

/-- One iteration of the hybrid merge loop of
`AzureAIRedactor.detect_pii_entities` (azure_ai_redactor.py lines 152-163);
the state is the pair `(unique_entities, processed_ranges)`. -/
def azMergeStep (st : List AzEntity × List (ℤ × ℤ)) (e : AzEntity) :
    List AzEntity × List (ℤ × ℤ) :=
  if st.2.any fun r => decide (azRangeOverlap e r) then st
  else (st.1 ++ [e], st.2 ++ [(e.offset, e.offset + e.length)])

/-- The hybrid merge of `AzureAIRedactor.detect_pii_entities`
(azure_ai_redactor.py lines 147-170): sort the combined entity list by
confidence descending, accept each entity whose index range meets no accepted
range, and return the accepted entities in acceptance order. -/
def azMerge (combined : List AzEntity) : List AzEntity :=
  ((List.insertionSort azConfGe combined).foldl azMergeStep ([], [])).1

/-- Key ordering of `sorted(entities, key=lambda x: (x.offset,
-x.confidence_score))` in `AzureAIRedactor._fallback_detection`
(azure_ai_redactor.py line 227) and in
`DemoAzureAIRedactor.detect_pii_entities` (demo_redactor.py line 118). -/
def fbKeyLe (a b : AzEntity) : Prop :=
  a.offset < b.offset ∨ (a.offset = b.offset ∧ b.confidence_score ≤ a.confidence_score)

instance : DecidableRel fbKeyLe := fun a b => by
  unfold fbKeyLe; infer_instance

instance : IsTotal AzEntity fbKeyLe := by
  constructor
  intro a b
  unfold fbKeyLe
  rcases lt_trichotomy a.offset b.offset with h | h | h
  · exact Or.inl (Or.inl h)
  · rcases le_total b.confidence_score a.confidence_score with h2 | h2
    · exact Or.inl (Or.inr ⟨h, h2⟩)
    · exact Or.inr (Or.inr ⟨h.symm, h2⟩)
  · exact Or.inr (Or.inl h)

instance : IsTrans AzEntity fbKeyLe := by
  constructor
  intro a b c hab hbc
  unfold fbKeyLe at *
  rcases hab with h | ⟨he, hc⟩
  · rcases hbc with h2 | ⟨he2, _⟩
    · exact Or.inl (h.trans h2)
    · exact Or.inl (he2 ▸ h)
  · rcases hbc with h2 | ⟨he2, hc2⟩
    · exact Or.inl (he ▸ h2)
    · exact Or.inr ⟨he.trans he2, hc2.trans hc⟩

/-- Overlap test of the duplicate-removal loop shared by
`AzureAIRedactor._fallback_detection` (azure_ai_redactor.py lines 229-234) and
`DemoAzureAIRedactor.detect_pii_entities` (demo_redactor.py lines 120-125):
`any(pos in entity_range for existing_start, existing_end in seen_positions
for pos in range(existing_start, existing_end))`. -/
def fbRangeOverlap (e : AzEntity) (r : ℤ × ℤ) : Prop :=
  ∃ pos ∈ pyRange r.1 r.2, pos ∈ pyRange e.offset (e.offset + e.length)

instance (e : AzEntity) (r : ℤ × ℤ) : Decidable (fbRangeOverlap e r) := by
  unfold fbRangeOverlap; infer_instance

/-- One iteration of that duplicate-removal loop; the state is
`(unique_entities, seen_positions)`.  Python's `seen_positions` is a set used
only through `any(...)` and `add`, so a list accumulating the inserted pairs is
an equivalent model. -/
def fbDedupStep (st : List AzEntity × List (ℤ × ℤ)) (e : AzEntity) :
    List AzEntity × List (ℤ × ℤ) :=
  if st.2.any fun r => decide (fbRangeOverlap e r) then st
  else (st.1 ++ [e], st.2 ++ [(e.offset, e.offset + e.length)])

/-- The regex duplicate removal shared by `AzureAIRedactor._fallback_detection`
(azure_ai_redactor.py lines 223-239) and
`DemoAzureAIRedactor.detect_pii_entities` (demo_redactor.py lines 114-129):
sort by `(offset, -confidence_score)` and accept each entity whose index range
meets no accepted range. -/
def fbDedup (entities : List AzEntity) : List AzEntity :=
  ((List.insertionSort fbKeyLe entities).foldl fbDedupStep ([], [])).1

/-- Modelled from the spec (section 4.4): the tie-broken candidate ordering
"sort candidates by confidence descending (ties broken by earliest start)".
The merger is stated generically over accessor functions so that it can be
compared with both deduplication routines. -/
def specSortLe (conf : α → ℚ) (st : α → ℤ) (a b : α) : Prop :=
  conf b < conf a ∨ (conf a = conf b ∧ st a ≤ st b)

instance (conf : α → ℚ) (st : α → ℤ) : DecidableRel (specSortLe conf st) :=
  fun a b => by unfold specSortLe; infer_instance

instance (conf : α → ℚ) (st : α → ℤ) : IsTotal α (specSortLe conf st) := by
  constructor
  intro a b
  unfold specSortLe
  rcases lt_trichotomy (conf a) (conf b) with h | h | h
  · exact Or.inr (Or.inl h)
  · rcases le_total (st a) (st b) with h2 | h2
    · exact Or.inl (Or.inr ⟨h, h2⟩)
    · exact Or.inr (Or.inr ⟨h.symm, h2⟩)
  · exact Or.inl (Or.inl h)

instance (conf : α → ℚ) (st : α → ℤ) : IsTrans α (specSortLe conf st) := by
  constructor
  intro a b c hab hbc
  unfold specSortLe at *
  rcases hab with h | ⟨he, hs⟩
  · rcases hbc with h2 | ⟨he2, _⟩
    · exact Or.inl (h2.trans h)
    · exact Or.inl (he2 ▸ h)
  · rcases hbc with h2 | ⟨he2, hs2⟩
    · exact Or.inl (he ▸ h2)
    · exact Or.inr ⟨he.trans he2, hs.trans hs2⟩

/-- Modelled from the spec (section 4.4): "Two entities intersect iff
`a.start < b.end and b.start < a.end` (half-open interval overlap test)". -/
def specIntersects (st en : α → ℤ) (a b : α) : Prop :=
  st a < en b ∧ st b < en a

instance (st en : α → ℤ) (a b : α) : Decidable (specIntersects st en a b) := by
  unfold specIntersects; infer_instance

/-- Modelled from the spec (section 4.4): "Walk the sorted list; for each
candidate, test range intersection against every entity already accepted.  If
no intersection, accept it; if it intersects an accepted entity, discard the
candidate." -/
def specWalk (st en : α → ℤ) (acc : List α) : List α → List α
  | [] => acc
  | e :: rest =>
      if acc.any fun x => decide (specIntersects st en x e) then
        specWalk st en acc rest
      else
        specWalk st en (acc ++ [e]) rest

/-- Ordering for the spec's final "re-sort the accepted set by `start`
ascending". -/
def specStartLe (st : α → ℤ) (a b : α) : Prop := st a ≤ st b

instance (st : α → ℤ) : DecidableRel (specStartLe st) :=
  fun a b => by unfold specStartLe; infer_instance

instance (st : α → ℤ) : IsTotal α (specStartLe st) :=
  ⟨fun a b => le_total (st a) (st b)⟩

instance (st : α → ℤ) : IsTrans α (specStartLe st) :=
  ⟨fun _ _ _ h h2 => le_trans h h2⟩

/-- Modelled from the spec (section 4.4): the complete confidence-first greedy
merge algorithm, parameterised by the entity accessors. -/
def specMerge (conf : α → ℚ) (st en : α → ℤ) (l : List α) : List α :=
  List.insertionSort (specStartLe st)
    (specWalk st en [] (List.insertionSort (specSortLe conf st) l))

/-- Sentence terminator class of the regex `[.!?]\s+` used by
`GPT4oMiniRedactor._chunk_text` (gpt4o_redactor.py line 194). -/
def isSentTerm (c : Char) : Bool :=
  c = '.' || c = '!' || c = '?'

/-- ASCII whitespace matched by the Python regex class `\s` (the source texts
handled by the chunker are treated as ASCII here; the six ASCII whitespace
characters are the ones `\s` recognises on them). -/
def isPySpace (c : Char) : Bool :=
  c = ' ' || c = '\t' || c = '\n' || c = '\r' || c = '\x0b' || c = '\x0c'

/-- Scanner state for locating the matches of `[.!?]\s+`:
`idle` (no partial match), `afterTerm` (the previous character was a sentence
terminator, no whitespace consumed yet), `inRun` (a terminator followed by at
least one whitespace character has been consumed, the match is still open). -/
inductive SBState where
  | idle
  | afterTerm
  | inRun
  deriving DecidableEq, Repr

/-- Left-to-right scan producing the list of `m.end()` values of
`re.finditer(r'[.!?]\s+', s)` (gpt4o_redactor.py line 194): a match is a
sentence terminator followed by a maximal nonempty whitespace run, matches do
not overlap, and the recorded value is the index just after the match.  `pos`
is the index of the head of the remaining character list. -/
def sbScan : List Char → ℕ → SBState → List ℕ
  | [], pos, st => if st = SBState.inRun then [pos] else []
  | c :: rest, pos, SBState.idle =>
      sbScan rest (pos + 1) (if isSentTerm c then SBState.afterTerm else SBState.idle)
  | c :: rest, pos, SBState.afterTerm =>
      if isPySpace c then sbScan rest (pos + 1) SBState.inRun
      else sbScan rest (pos + 1) (if isSentTerm c then SBState.afterTerm else SBState.idle)
  | c :: rest, pos, SBState.inRun =>
      if isPySpace c then sbScan rest (pos + 1) SBState.inRun
      else pos :: sbScan rest (pos + 1) (if isSentTerm c then SBState.afterTerm else SBState.idle)

/-- The list `[m.end() for m in re.finditer(r'[.!?]\s+', s)]` of
gpt4o_redactor.py line 194. -/
def sentenceBreaks (s : List Char) : List ℕ := sbScan s 0 SBState.idle

/-- The effective end position of the chunk starting at `start`
(gpt4o_redactor.py lines 188-198): the raw cut `start + chunk_size`, snapped
back to the last sentence break found in the final (up to) 100 characters
before the cut when the cut falls strictly inside the text. -/
def chunkEnd (chunkSize : ℕ) (text : List Char) (start : ℕ) : ℕ :=
  if start + chunkSize < text.length then
    match (sentenceBreaks ((text.drop (max (start + chunkSize - 100) start)).take
        (start + chunkSize - max (start + chunkSize - 100) start))).getLast? with
    | some b => max (start + chunkSize - 100) start + b
    | none => start + chunkSize
  else start + chunkSize

/-- The chunking loop of `_chunk_text` (gpt4o_redactor.py lines 184-204),
recorded as the list of `(start, end)` spans of the produced chunks; the final
chunk's span is clamped to the text length, matching the slice `text[start:end]`
it produces.  The loop advances `start` to `end - overlap_size` exactly when
`end < len(text)`, and otherwise stops after the current chunk.  `fuel` bounds
the number of iterations; the theorems below always supply enough fuel. -/
def chunkLoop (chunkSize overlapSize : ℕ) (text : List Char) :
    ℕ → ℕ → List (ℕ × ℕ)
  | 0, _ => []
  | fuel + 1, start =>
      if start < text.length then
        if chunkEnd chunkSize text start < text.length then
          (start, chunkEnd chunkSize text start) ::
            chunkLoop chunkSize overlapSize text fuel
              (chunkEnd chunkSize text start - overlapSize)
        else [(start, text.length)]
      else []

/-- The `(start, end)` spans of the chunks returned by
`GPT4oMiniRedactor._chunk_text` (gpt4o_redactor.py lines 178-207), including
the early single-chunk return for `len(text) <= chunk_size`. -/
def chunkSpans (chunkSize overlapSize : ℕ) (text : List Char) : List (ℕ × ℕ) :=
  if text.length ≤ chunkSize then [(0, text.length)]
  else chunkLoop chunkSize overlapSize text text.length 0

/-- The chunks returned by `GPT4oMiniRedactor._chunk_text`: the slice
`text[start:end]` of each span. -/
def chunkText (chunkSize overlapSize : ℕ) (text : List Char) : List (List Char) :=
  (chunkSpans chunkSize overlapSize text).map fun p => (text.drop p.1).take (p.2 - p.1)

/-- The per-chunk offset adjustment recomputed by
`GPT4oMiniRedactor.detect_pii_entities` (gpt4o_redactor.py line 268):
`chunk_start = sum(len(chunks[j]) - self.config.overlap_size for j in
range(i))`, an integer sum over the chunks preceding chunk `i`. -/
def gptChunkStart (overlapSize : ℕ) (chunks : List (List Char)) (i : ℕ) : ℤ :=
  (((chunks.take i).map fun c => (c.length : ℤ) - (overlapSize : ℤ)).sum)

/-- Outcome of `GPT4oMiniRedactor._parse_llm_response` (gpt4o_redactor.py
lines 132-176) before the per-entity loop: the response text may contain no
outermost `\x7b ... \x7d` pair (line 141), fail `json.loads` (line 171), lack
the `entities` key (line 150), or decode to a list of entity records. -/
inductive LLMParse where
  | noJson
  | badJson
  | noEntitiesKey
  | ok (entities : List GptEntity)

/-- The entity list returned by `_parse_llm_response`: every failure branch
returns the empty list, and the success branch keeps exactly the decoded
entities whose confidence reaches the configured threshold (gpt4o_redactor.py
lines 154-167). -/
def parseLLMResponse (threshold : ℚ) : LLMParse → List GptEntity
  | LLMParse.ok entities => entities.filter fun e => threshold ≤ e.confidence
  | _ => []

/-- Outcome of processing one chunk in `GPT4oMiniRedactor.detect_pii_entities`
(gpt4o_redactor.py lines 243-282): either the provider call raised (the
`except` branch at line 280, which logs and continues) or it returned a
response with the given parse outcome. -/
inductive ChunkResult where
  | exn
  | resp (p : LLMParse)

/-- The entities a single chunk contributes to `detect_pii_entities`: nothing
on an exception, otherwise the parsed entities with `start_pos`/`end_pos`
shifted by the recomputed chunk start (gpt4o_redactor.py lines 264-273). -/
def gptChunkContribution (threshold : ℚ) (cstart : ℤ) : ChunkResult → List GptEntity
  | ChunkResult.exn => []
  | ChunkResult.resp p =>
      (parseLLMResponse threshold p).map fun e =>
        { e with start_pos := e.start_pos + cstart, end_pos := e.end_pos + cstart }

/-- The pure core of `GPT4oMiniRedactor.detect_pii_entities` (gpt4o_redactor.py
lines 221-292) over the per-chunk provider outcomes `results` (aligned with
`chunks`): collect every chunk's adjusted entities in order and deduplicate. -/
def gptDetectCore (threshold : ℚ) (overlapSize : ℕ) (chunks : List (List Char))
    (results : List ChunkResult) : List GptEntity :=
  gptDedup ((((List.range results.length).zip results).map fun p =>
    gptChunkContribution threshold (gptChunkStart overlapSize chunks p.1) p.2).flatten)

/-- The category translation applied by `AzureAIRedactor._fallback_detection`
(azure_ai_redactor.py lines 204-211): the internal pattern category is mapped
to the Azure category name, defaulting to itself. -/
def azureCategoryMap (category : String) : String :=
  if category = "credit_card" then "CreditCardNumber"
  else if category = "phone" then "PhoneNumber"
  else if category = "ssn" then "USPersonalIdentificationNumber"
  else if category = "email" then "Email"
  else if category = "address" then "Address"
  else if category = "name_context" then "Person"
  else category

/-- One regex match as consumed by the entity-construction loop of
`_fallback_detection` (azure_ai_redactor.py lines 184-201): the pattern's
category, the PII text selected from the match (captured group or full match)
and the offset computed for it. -/
structure FallbackMatch where
  category : String
  piiText : String
  offset : ℤ

/-- The entity built from one regex match by `_fallback_detection`
(azure_ai_redactor.py lines 213-220): mapped category, fixed confidence 0.95,
length equal to the length of the selected PII text. -/
def mkFallbackEntity (m : FallbackMatch) : AzEntity :=
  { text := m.piiText
    category := azureCategoryMap m.category
    subcategory := none
    confidence_score := 95 / 100
    offset := m.offset
    length := (m.piiText.length : ℤ) }

/-- The full `AzureAIRedactor._fallback_detection` (azure_ai_redactor.py
lines 172-243) over its regex matches: build one entity of confidence 0.95 per
match, then run the duplicate-removal loop. -/
def fallbackDetection (ms : List FallbackMatch) : List AzEntity :=
  fbDedup (ms.map mkFallbackEntity)

/-- The Azure Text Analytics collection loop of
`AzureAIRedactor.detect_pii_entities` (azure_ai_redactor.py lines 104-131):
chunks are processed in order, each accepted entity needs
`confidence_score >= threshold` and is shifted by the running
`offset_adjustment`, which grows by the chunk's length after every chunk; the
single `try` block covers the whole loop, so the first chunk whose provider
call raises ends the collection, keeping the entities gathered so far. -/
def azCollect (threshold : ℚ) :
    List (List Char × Except Unit (List AzEntity)) → ℤ → List AzEntity
  | [], _ => []
  | (_, Except.error _) :: _, _ => []
  | (chunk, Except.ok es) :: rest, adj =>
      ((es.filter fun e => threshold ≤ e.confidence_score).map fun e =>
        { e with offset := e.offset + adj }) ++
      azCollect threshold rest (adj + (chunk.length : ℤ))

/-- The pure core of `AzureAIRedactor.detect_pii_entities` (azure_ai_redactor.py
lines 90-170): Azure entities collected until the first provider failure,
concatenated with the regex fallback entities, then merged. -/
def azDetectCore (threshold : ℚ)
    (chunkResults : List (List Char × Except Unit (List AzEntity)))
    (ms : List FallbackMatch) : List AzEntity :=
  azMerge (azCollect threshold chunkResults 0 ++ fallbackDetection ms)

/-- Python `haystack.find(needle)`: the smallest index at which `needle` occurs
as a contiguous sublist of `haystack`, or `-1` when it does not occur. -/
def pyFind : List Char → List Char → ℤ
  | [], needle => if needle = [] then 0 else -1
  | c :: rest, needle =>
      if needle <+: (c :: rest) then 0
      else if pyFind rest needle = -1 then -1 else pyFind rest needle + 1

/-- The offset computed for a contextual-pattern entity by
`AzureAIRedactor._fallback_detection` (azure_ai_redactor.py lines 189-195) and
`DemoAzureAIRedactor.detect_pii_entities` (demo_redactor.py lines 90-96):
`offset = match.start() + full_match.find(pii_text)`, locating the captured
text by its first occurrence inside the full match. -/
def contextOffset (matchStart : ℤ) (fullMatch capturedText : List Char) : ℤ :=
  matchStart + pyFind fullMatch capturedText

/-- The captured group occurs at position `gpos` of the full match: the slice
of the full match at `[gpos, gpos + length)` is the captured text. -/
def GroupAt (fullMatch capturedText : List Char) (gpos : ℕ) : Prop :=
  gpos + capturedText.length ≤ fullMatch.length ∧
  (fullMatch.drop gpos).take capturedText.length = capturedText

instance (full grp : List Char) (gpos : ℕ) : Decidable (GroupAt full grp gpos) := by
  unfold GroupAt; infer_instance

/-- Claim C6 as stated: for every contextual match, the entity offset equals
the match start plus the position at which the captured group actually occurs
inside the full match. -/
def contextOffsetClaim : Prop :=
  ∀ (matchStart : ℤ) (fullMatch capturedText : List Char) (gpos : ℕ),
    GroupAt fullMatch capturedText gpos →
    contextOffset matchStart fullMatch capturedText = matchStart + (gpos : ℤ)

/-- Python slice endpoint normalisation for `s[:i]` and `s[i:]` on a string of
length `n`: a negative index counts from the end, and the result is clamped to
`[0, n]`.  Python string slicing is total, so this is a total function. -/
def pySliceIdx (n : ℕ) (i : ℤ) : ℕ :=
  (max 0 (min (n : ℤ) (if i < 0 then (n : ℤ) + i else i))).toNat

/-- Python `s[:i]` on a character list. -/
def pySliceUpto (s : List Char) (i : ℤ) : List Char := s.take (pySliceIdx s.length i)

/-- Python `s[i:]` on a character list. -/
def pySliceFrom (s : List Char) (i : ℤ) : List Char := s.drop (pySliceIdx s.length i)

/-- Redaction token lookup of `GPT4oMiniRedactor.redact_text`
(gpt4o_redactor.py lines 346-349): `self.redaction_patterns.get(category,
f'[\x7bcategory.upper()\x7d_REDACTED]')`, with the configured pattern table
modelled as an association list. -/
def gptRedactionToken (patterns : List (String × String)) (category : String) : String :=
  match patterns.lookup category with
  | some tok => tok
  | none => "[" ++ String.mk (category.data.map Char.toUpper) ++ "_REDACTED]"

/-- One replacement of the loop of `GPT4oMiniRedactor.redact_text`
(gpt4o_redactor.py lines 344-356): `redacted_text[:start_pos] + token +
redacted_text[end_pos:]`, using Python's total slice semantics. -/
def gptRedactStep (patterns : List (String × String)) (acc : List Char)
    (e : GptEntity) : List Char :=
  pySliceUpto acc e.start_pos ++ (gptRedactionToken patterns e.category).data ++
    pySliceFrom acc e.end_pos

/-- Ordering of `sorted(entities, key=lambda x: x.start_pos, reverse=True)`
(gpt4o_redactor.py line 338): `start_pos` descending, ties in original order. -/
def gptStartGe (a b : GptEntity) : Prop := b.start_pos ≤ a.start_pos

instance : DecidableRel gptStartGe := fun a b => by
  unfold gptStartGe; infer_instance

/-- The replacement loop of `GPT4oMiniRedactor.redact_text` (gpt4o_redactor.py
lines 337-356): replace each detected span in `start_pos`-descending order. -/
def gptRedactApply (patterns : List (String × String)) (text : List Char)
    (entities : List GptEntity) : List Char :=
  (List.insertionSort gptStartGe entities).foldl (gptRedactStep patterns) text

/-- Token lookup of `AzureAIRedactor.redact_text` (azure_ai_redactor.py
line 288): `redaction_map.get(category, f'[\x7bcategory.upper()\x7d_REDACTED]')`. -/
def azRedactionToken (redactionMap : List (String × String)) (category : String) : String :=
  match redactionMap.lookup category with
  | some tok => tok
  | none => "[" ++ String.mk (category.data.map Char.toUpper) ++ "_REDACTED]"

/-- One replacement of the loop of `AzureAIRedactor.redact_text`
(azure_ai_redactor.py lines 287-293): `redacted_text[:start] + token +
redacted_text[end:]` with `start = offset` and `end = offset + length`. -/
def azRedactStep (redactionMap : List (String × String)) (acc : List Char)
    (e : AzEntity) : List Char :=
  pySliceUpto acc e.offset ++ (azRedactionToken redactionMap e.category).data ++
    pySliceFrom acc (e.offset + e.length)

/-- Ordering of `sorted(entities, key=lambda x: x.offset, reverse=True)`
(azure_ai_redactor.py line 281). -/
def azOffsetGe (a b : AzEntity) : Prop := b.offset ≤ a.offset

instance : DecidableRel azOffsetGe := fun a b => by
  unfold azOffsetGe; infer_instance

/-- The replacement loop of `AzureAIRedactor.redact_text` (azure_ai_redactor.py
lines 280-293), shared verbatim by `DemoAzureAIRedactor.redact_text`
(demo_redactor.py lines 154-167). -/
def azRedactApply (redactionMap : List (String × String)) (text : List Char)
    (entities : List AzEntity) : List Char :=
  (List.insertionSort azOffsetGe entities).foldl (azRedactStep redactionMap) text

/-- Category weights of `analyze_document_risk` (azure_ai_redactor.py
lines 351-357 and demo_redactor.py lines 215-221):
`risk_multipliers.get(category, 1)`. -/
def riskWeight (category : String) : ℕ :=
  if category = "CreditCardNumber" then 5
  else if category = "PhoneNumber" then 3
  else if category = "Address" then 4
  else if category = "Person" then 2
  else if category = "Email" then 2
  else 1

/-- The weighted risk score of `analyze_document_risk` (azure_ai_redactor.py
lines 335-362, demo_redactor.py lines 200-226): count the entities of each
distinct category (`category_counts` keeps first-occurrence key order) and sum
`count * weight`. -/
def riskScore (cats : List String) : ℕ :=
  (cats.dedup.map fun c => cats.count c * riskWeight c).sum

/-- The level classification of `analyze_document_risk` (azure_ai_redactor.py
lines 364-368, demo_redactor.py lines 228-232): `LOW`, overridden to `HIGH`
when the score exceeds 20, else to `MEDIUM` when it exceeds 10. -/
def riskLevel (cats : List String) : String :=
  if riskScore cats > 20 then "HIGH"
  else if riskScore cats > 10 then "MEDIUM"
  else "LOW"

/-- The `_assess_risk_level` method shared verbatim by
`DocumentProcessor` (document_processors.py lines 55-71) and
`EnhancedPDFProcessor` (enhanced_pdf_processor.py lines 158-170):
zero entities give `LOW`; otherwise the presence of an `ssn` or `credit_cards`
key in the per-category confidence map, or a count of at least 10, forces
`HIGH`; a count of at least 5 gives `MEDIUM`; anything else gives `LOW`. -/
def assessRiskLevel (entitiesCount : ℕ) (confidenceScores : List (String × ℚ)) : String :=
  if entitiesCount = 0 then "LOW"
  else if (confidenceScores.map Prod.fst).contains "ssn" ||
          (confidenceScores.map Prod.fst).contains "credit_cards" ||
          entitiesCount ≥ 10 then "HIGH"
  else if entitiesCount ≥ 5 then "MEDIUM"
  else "LOW"

/-! Helper lemmas. -/

/-- A list is equal to any permutation of itself that is sorted by the same
relation, provided the relation is antisymmetric on the list's members. -/
theorem perm_sorted_unique {α : Type} {R : α → α → Prop} :
    ∀ (l₁ l₂ : List α), List.Perm l₁ l₂ → l₁.Pairwise R → l₂.Pairwise R →
      (∀ a b, a ∈ l₁ → b ∈ l₁ → R a b → R b a → a = b) → l₁ = l₂ := by
  intro l₁
  induction l₁ with
  | nil =>
    intro l₂ p _ _ _
    exact p.nil_eq
  | cons a t₁ ih =>
    intro l₂ p h₁ h₂ anti
    cases l₂ with
    | nil =>
      rw [List.perm_nil] at p
      exact absurd p (by simp)
    | cons b t₂ =>
      have hab : a = b := by
        by_contra hne
        have ha2 : a ∈ t₂ := by
          rcases List.mem_cons.mp (p.mem_iff.mp (List.mem_cons_self a t₁)) with h | h
          · exact absurd h hne
          · exact h
        have hb2 : b ∈ t₁ := by
          rcases List.mem_cons.mp (p.symm.mem_iff.mp (List.mem_cons_self b t₂)) with h | h
          · exact absurd h.symm hne
          · exact h
        have hRba : R b a := (List.pairwise_cons.mp h₂).1 a ha2
        have hRab : R a b := (List.pairwise_cons.mp h₁).1 b hb2
        exact hne (anti a b (List.mem_cons_self a t₁)
          (List.mem_cons_of_mem a hb2) hRab hRba)
      subst hab
      have ht : List.Perm t₁ t₂ := p.cons_inv
      rw [ih t₂ ht (List.pairwise_cons.mp h₁).2 (List.pairwise_cons.mp h₂).2
        (fun x y hx hy => anti x y (List.mem_cons_of_mem _ hx) (List.mem_cons_of_mem _ hy))]

/-- Two nonempty half-open integer ranges have a nonempty intersection exactly
when the arithmetic overlap test holds. -/
theorem pyRange_inter_pos {a b c d : ℤ} (hab : a < b) (hcd : c < d) :
    (0 < ((pyRange a b) ∩ (pyRange c d)).card) ↔ (a < d ∧ c < b) := by
  unfold pyRange
  rw [Finset.card_pos, Finset.Ico_inter_Ico, Finset.nonempty_Ico, max_lt_iff,
    lt_min_iff, lt_min_iff]
  constructor
  · rintro ⟨⟨_, h1⟩, h2, _⟩
    exact ⟨h1, h2⟩
  · rintro ⟨h1, h2⟩
    exact ⟨⟨hab, h1⟩, h2, hcd⟩

/-- Membership form of the same equivalence, matching the fallback dedup test. -/
theorem pyRange_exists_mem {a b c d : ℤ} (hab : a < b) (hcd : c < d) :
    (∃ pos ∈ pyRange a b, pos ∈ pyRange c d) ↔ (a < d ∧ c < b) := by
  unfold pyRange
  simp only [Finset.mem_Ico]
  constructor
  · rintro ⟨pos, ⟨h1, h2⟩, h3, h4⟩
    omega
  · rintro ⟨h1, h2⟩
    by_cases hac : a ≤ c
    · exact ⟨c, ⟨hac, h2⟩, le_refl c, hcd⟩
    · exact ⟨a, ⟨le_refl a, hab⟩, by omega, h1⟩

/-! Claim C8. -/

/-- Claim C8: `analyze_document_risk` computes the weighted score as the sum of
`count * weight` over detected categories with weights `CreditCardNumber` 5,
`Address` 4, `PhoneNumber` 3, `Person` 2, `Email` 2 and default 1, and maps it
to `HIGH` iff the score exceeds 20, `MEDIUM` iff it lies in `(10, 20]`, and
`LOW` otherwise; zero entities always give `LOW`. -/
theorem claim8_risk_score_level (entities : List AzEntity) :
    (riskLevel (entities.map AzEntity.category) = "HIGH" ↔
      20 < riskScore (entities.map AzEntity.category)) ∧
    (riskLevel (entities.map AzEntity.category) = "MEDIUM" ↔
      (10 < riskScore (entities.map AzEntity.category) ∧
        riskScore (entities.map AzEntity.category) ≤ 20)) ∧
    (riskLevel (entities.map AzEntity.category) = "LOW" ↔
      riskScore (entities.map AzEntity.category) ≤ 10) ∧
    (entities = [] → riskLevel (entities.map AzEntity.category) = "LOW") ∧
    (riskScore (entities.map AzEntity.category) =
      ((entities.map AzEntity.category).dedup.map fun c =>
        (entities.map AzEntity.category).count c * riskWeight c).sum) ∧
    riskWeight "CreditCardNumber" = 5 ∧ riskWeight "Address" = 4 ∧
    riskWeight "PhoneNumber" = 3 ∧ riskWeight "Person" = 2 ∧
    riskWeight "Email" = 2 ∧
    (∀ c, c ≠ "CreditCardNumber" → c ≠ "Address" → c ≠ "PhoneNumber" →
      c ≠ "Person" → c ≠ "Email" → riskWeight c = 1) := by
  have key : ∀ cats : List String,
      (riskLevel cats = "HIGH" ↔ 20 < riskScore cats) ∧
      (riskLevel cats = "MEDIUM" ↔ (10 < riskScore cats ∧ riskScore cats ≤ 20)) ∧
      (riskLevel cats = "LOW" ↔ riskScore cats ≤ 10) := by
    intro cats
    have hlvl : riskLevel cats = if 20 < riskScore cats then "HIGH"
        else if 10 < riskScore cats then "MEDIUM" else "LOW" := rfl
    refine ⟨⟨fun h => ?_, fun h => by rw [hlvl, if_pos h]⟩,
      ⟨fun h => ?_, fun h => by rw [hlvl, if_neg (by omega), if_pos h.1]⟩,
      ⟨fun h => ?_, fun h => by rw [hlvl, if_neg (by omega), if_neg (by omega)]⟩⟩
    · by_contra hc
      rw [hlvl, if_neg hc] at h
      by_cases h10 : 10 < riskScore cats
      · rw [if_pos h10] at h
        exact absurd h (by decide)
      · rw [if_neg h10] at h
        exact absurd h (by decide)
    · rw [hlvl] at h
      by_cases h20 : 20 < riskScore cats
      · rw [if_pos h20] at h
        exact absurd h (by decide)
      · rw [if_neg h20] at h
        by_cases h10 : 10 < riskScore cats
        · exact ⟨h10, by omega⟩
        · rw [if_neg h10] at h
          exact absurd h (by decide)
    · rw [hlvl] at h
      by_cases h20 : 20 < riskScore cats
      · rw [if_pos h20] at h
        exact absurd h (by decide)
      · rw [if_neg h20] at h
        by_cases h10 : 10 < riskScore cats
        · rw [if_pos h10] at h
          exact absurd h (by decide)
        · omega
  refine ⟨(key _).1, (key _).2.1, (key _).2.2, fun h => ?_, rfl,
    by decide, by decide, by decide, by decide, by decide, fun c h1 h2 h3 h4 h5 => ?_⟩
  · subst h
    decide
  · unfold riskWeight
    simp [h1, h2, h3, h4, h5]

/-- Concrete instance of claim C8: an empty entity list is classified `LOW`. -/
theorem claim8_witness :
    riskLevel (([] : List AzEntity).map AzEntity.category) = "LOW" :=
  (claim8_risk_score_level []).2.2.2.1 rfl

/-! Claim C9. -/

/-- Claim C9: `_assess_risk_level` returns `LOW` for zero entities, and for at
least one entity returns `HIGH` whenever the per-category confidence map has an
`ssn` or `credit_cards` key or the entity count is at least 10. -/
theorem claim9_assess_risk_level (entitiesCount : ℕ)
    (confidenceScores : List (String × ℚ)) :
    (entitiesCount = 0 → assessRiskLevel entitiesCount confidenceScores = "LOW") ∧
    (1 ≤ entitiesCount →
      ((confidenceScores.map Prod.fst).contains "ssn" ∨
        (confidenceScores.map Prod.fst).contains "credit_cards" ∨
        10 ≤ entitiesCount) →
      assessRiskLevel entitiesCount confidenceScores = "HIGH") := by
  constructor
  · intro h
    subst h
    rfl
  · intro h1 h2
    unfold assessRiskLevel
    rw [if_neg (by omega : ¬ entitiesCount = 0), if_pos]
    simp only [Bool.or_eq_true, decide_eq_true_eq]
    rcases h2 with h | h | h
    · exact Or.inl (Or.inl h)
    · exact Or.inl (Or.inr h)
    · exact Or.inr h

/-! Claim C6. -/

/-- Python `find` returns the first occurrence: when the needle occurs at
`gpos` and at no earlier position, `find` returns `gpos`. -/
theorem pyFind_eq_of_first :
    ∀ (full grp : List Char) (gpos : ℕ), GroupAt full grp gpos →
      (∀ j, j < gpos → ¬ GroupAt full grp j) → pyFind full grp = (gpos : ℤ) := by
  intro full
  induction full with
  | nil =>
    intro grp gpos hocc _
    obtain ⟨hlen, _⟩ := hocc
    simp only [List.length_nil] at hlen
    have hg : gpos = 0 := by omega
    have hgr : grp = [] := List.length_eq_zero.mp (by omega)
    subst hg
    subst hgr
    simp [pyFind]
  | cons c rest ih =>
    intro grp gpos hocc hfirst
    cases gpos with
    | zero =>
      have hpre : grp <+: (c :: rest) := by
        rw [List.prefix_iff_eq_take]
        have := hocc.2
        rw [List.drop_zero] at this
        exact this.symm
      simp only [pyFind]
      rw [if_pos hpre]
      rfl
    | succ k =>
      have hnotpre : ¬ grp <+: (c :: rest) := by
        intro hp
        refine hfirst 0 (Nat.succ_pos k) ⟨by simpa using hp.length_le, ?_⟩
        rw [List.drop_zero]
        exact (List.prefix_iff_eq_take.mp hp).symm
      have hocc2 : GroupAt rest grp k := by
        refine ⟨?_, ?_⟩
        · have := hocc.1
          simp only [List.length_cons] at this
          omega
        · have := hocc.2
          rwa [List.drop_succ_cons] at this
      have hfirst2 : ∀ j, j < k → ¬ GroupAt rest grp j := by
        intro j hj hocc3
        refine hfirst (j + 1) (by omega) ⟨?_, ?_⟩
        · have := hocc3.1
          simp only [List.length_cons]
          omega
        · rw [List.drop_succ_cons]
          exact hocc3.2
      have hr := ih grp k hocc2 hfirst2
      simp only [pyFind]
      rw [if_neg hnotpre, hr, if_neg (by omega : ¬ ((k : ℤ) = -1))]
      push_cast
      ring

/-- Counterexample to claim C6 as stated: on the text `"To To To"` the
contextual pattern `(?i)(?:from|to|by|signed)\s*:?\s*([A-Z][a-z]+\s+[A-Z][a-z]+)`
(azure_ai_redactor.py line 82, demo_redactor.py line 45) matches the whole
string with captured group `"To To"` at position 3, but
`full_match.find(captured_text)` finds the earlier occurrence at position 0,
so the emitted offset points at the label word `"To"` instead of the group. -/
theorem claim6_counterexample : ¬ contextOffsetClaim := by
  intro h
  have h2 := h 0 "To To To".data "To To".data 3 (by decide)
  revert h2
  decide

/-- Amended claim C6: the entity offset for a contextual match equals the match
start plus the first occurrence of the captured text inside the full match; in
particular it equals the captured group's true position whenever the captured
text does not occur at any earlier position inside the match. -/
theorem claim6_context_offset_first_occurrence (matchStart : ℤ)
    (fullMatch capturedText : List Char) (gpos : ℕ)
    (hocc : GroupAt fullMatch capturedText gpos)
    (hfirst : ∀ j, j < gpos → ¬ GroupAt fullMatch capturedText j) :
    contextOffset matchStart fullMatch capturedText = matchStart + (gpos : ℤ) := by
  unfold contextOffset
  rw [pyFind_eq_of_first fullMatch capturedText gpos hocc hfirst]

/-- Concrete instance of amended claim C6: in the match `"Phone: 555"` the
captured text `"555"` occurs first at its true position 7, so the offset is
computed correctly. -/
theorem claim6_witness :
    GroupAt "Phone: 555".data "555".data 7 ∧
    contextOffset 2 "Phone: 555".data "555".data = 2 + (7 : ℤ) :=
  ⟨by decide,
    claim6_context_offset_first_occurrence 2 "Phone: 555".data "555".data 7
      (by decide) (by decide)⟩

/-! Claim C10. -/

/-- Characters produced by folding a replacement step all come from the initial
text or from one of the processed elements' tokens. -/
theorem foldl_concat_mem {β : Type} (tok : β → List Char)
    (f : List Char → β → List Char)
    (hf : ∀ acc e c, c ∈ f acc e → c ∈ acc ∨ c ∈ tok e) :
    ∀ (l : List β) (acc : List Char) (c : Char), c ∈ l.foldl f acc →
      c ∈ acc ∨ ∃ e ∈ l, c ∈ tok e := by
  intro l
  induction l with
  | nil =>
    intro acc c hc
    exact Or.inl hc
  | cons x xs ih =>
    intro acc c hc
    rcases ih (f acc x) c hc with h | ⟨e, he, hce⟩
    · rcases hf acc x c h with h2 | h2
      · exact Or.inl h2
      · exact Or.inr ⟨x, List.mem_cons_self x xs, h2⟩
    · exact Or.inr ⟨e, List.mem_cons_of_mem _ he, hce⟩

/-- Claim C10: the replacement loops of both `redact_text` methods are total:
with no entities the text is returned unchanged, and for arbitrary entity
lists — any integer offsets, including negative ones or offsets past the end of
the string — the loop produces a string whose every character comes from the
original text or from a redaction token (Python's total slice semantics turn
invariant-violating offsets into a silently wrong redaction, never an error). -/
theorem claim10_redact_total :
    (∀ patterns text, gptRedactApply patterns text [] = text) ∧
    (∀ redactionMap text, azRedactApply redactionMap text [] = text) ∧
    (∀ patterns text entities c, c ∈ gptRedactApply patterns text entities →
      c ∈ text ∨ ∃ e ∈ entities, c ∈ (gptRedactionToken patterns e.category).data) ∧
    (∀ redactionMap text entities c, c ∈ azRedactApply redactionMap text entities →
      c ∈ text ∨ ∃ e ∈ entities, c ∈ (azRedactionToken redactionMap e.category).data) := by
  refine ⟨fun _ _ => rfl, fun _ _ => rfl, ?_, ?_⟩
  · intro patterns text entities c hc
    unfold gptRedactApply at hc
    have hstep : ∀ acc e c2, c2 ∈ gptRedactStep patterns acc e →
        c2 ∈ acc ∨ c2 ∈ (gptRedactionToken patterns e.category).data := by
      intro acc e c2 hce
      unfold gptRedactStep pySliceUpto pySliceFrom at hce
      rcases List.mem_append.mp hce with h | h
      · rcases List.mem_append.mp h with h2 | h2
        · exact Or.inl (List.mem_of_mem_take h2)
        · exact Or.inr h2
      · exact Or.inl (List.mem_of_mem_drop h)
    rcases foldl_concat_mem (fun e => (gptRedactionToken patterns e.category).data)
        (gptRedactStep patterns) hstep (List.insertionSort gptStartGe entities)
        text c hc with h | ⟨e, he, hce⟩
    · exact Or.inl h
    · exact Or.inr ⟨e, (List.perm_insertionSort gptStartGe entities).mem_iff.mp he, hce⟩
  · intro redactionMap text entities c hc
    unfold azRedactApply at hc
    have hstep : ∀ acc e c2, c2 ∈ azRedactStep redactionMap acc e →
        c2 ∈ acc ∨ c2 ∈ (azRedactionToken redactionMap e.category).data := by
      intro acc e c2 hce
      unfold azRedactStep pySliceUpto pySliceFrom at hce
      rcases List.mem_append.mp hce with h | h
      · rcases List.mem_append.mp h with h2 | h2
        · exact Or.inl (List.mem_of_mem_take h2)
        · exact Or.inr h2
      · exact Or.inl (List.mem_of_mem_drop h)
    rcases foldl_concat_mem (fun e => (azRedactionToken redactionMap e.category).data)
        (azRedactStep redactionMap) hstep (List.insertionSort azOffsetGe entities)
        text c hc with h | ⟨e, he, hce⟩
    · exact Or.inl h
    · exact Or.inr ⟨e, (List.perm_insertionSort azOffsetGe entities).mem_iff.mp he, hce⟩

/-- Concrete instance of claim C10: an entity with offsets `-50` and `1000` on
a five-character text is processed without error, and the produced characters
come from the text or the generated token. -/
theorem claim10_witness :
    'R' ∈ gptRedactApply [] "abcde".data [⟨"x", "cat", 1, -50, 1000, "", ""⟩] ∧
    ('R' ∈ "abcde".data ∨ ∃ e ∈ [(⟨"x", "cat", 1, -50, 1000, "", ""⟩ : GptEntity)],
      'R' ∈ (gptRedactionToken [] e.category).data) :=
  ⟨by decide,
    claim10_redact_total.2.2.1 [] "abcde".data
      [⟨"x", "cat", 1, -50, 1000, "", ""⟩] 'R' (by decide)⟩

/-! Claims C3 and C7: membership lemmas for the detectors. -/

/-- Every element of `gptInsert acc e` is an old element or `e` itself. -/
theorem gptInsert_mem : ∀ (acc : List GptEntity) (e x : GptEntity),
    x ∈ gptInsert acc e → x ∈ acc ∨ x = e := by
  intro acc
  induction acc with
  | nil =>
    intro e x hx
    simp only [gptInsert, List.mem_singleton] at hx
    exact Or.inr hx
  | cons a as ih =>
    intro e x hx
    simp only [gptInsert] at hx
    split at hx
    · split at hx
      · rcases List.mem_append.mp hx with h | h
        · exact Or.inl (List.mem_cons_of_mem a h)
        · exact Or.inr (List.mem_singleton.mp h)
      · exact Or.inl hx
    · rcases List.mem_cons.mp hx with h | h
      · exact Or.inl (h ▸ List.mem_cons_self a as)
      · rcases ih e x h with h2 | h2
        · exact Or.inl (List.mem_cons_of_mem a h2)
        · exact Or.inr h2

/-- Every element of the accumulated deduplication state is an initial element
or an element of the processed list. -/
theorem gptFoldl_subset : ∀ (l acc : List GptEntity) (x : GptEntity),
    x ∈ l.foldl gptInsert acc → x ∈ acc ∨ x ∈ l := by
  intro l
  induction l with
  | nil =>
    intro acc x hx
    exact Or.inl hx
  | cons e es ih =>
    intro acc x hx
    rcases ih (gptInsert acc e) x hx with h | h
    · rcases gptInsert_mem acc e x h with h2 | h2
      · exact Or.inl h2
      · exact Or.inr (h2 ▸ List.mem_cons_self e es)
    · exact Or.inr (List.mem_cons_of_mem e h)

/-- The deduplicated list is a subset of the input list. -/
theorem gptDedup_subset {l : List GptEntity} {x : GptEntity}
    (hx : x ∈ gptDedup l) : x ∈ l := by
  unfold gptDedup at hx
  split at hx
  · exact hx
  · rcases gptFoldl_subset (List.insertionSort gptStartLe l) [] x
        ((List.perm_insertionSort gptStartLe _).mem_iff.mp hx) with h | h
    · exact absurd h (List.not_mem_nil x)
    · exact (List.perm_insertionSort gptStartLe l).mem_iff.mp h

/-- Every accepted entity of the hybrid merge fold is an initial state entity
or an element of the processed list. -/
theorem azFoldl_fst_subset : ∀ (l : List AzEntity)
    (st : List AzEntity × List (ℤ × ℤ)) (x : AzEntity),
    x ∈ (l.foldl azMergeStep st).1 → x ∈ st.1 ∨ x ∈ l := by
  intro l
  induction l with
  | nil =>
    intro st x hx
    exact Or.inl hx
  | cons e es ih =>
    intro st x hx
    rcases ih (azMergeStep st e) x hx with h | h
    · unfold azMergeStep at h
      split at h
      · exact Or.inl h
      · rcases List.mem_append.mp h with h2 | h2
        · exact Or.inl h2
        · exact Or.inr (List.mem_singleton.mp h2 ▸ List.mem_cons_self e es)
    · exact Or.inr (List.mem_cons_of_mem e h)

/-- The merged list is a subset of the combined input list. -/
theorem azMerge_subset {l : List AzEntity} {x : AzEntity}
    (hx : x ∈ azMerge l) : x ∈ l := by
  unfold azMerge at hx
  rcases azFoldl_fst_subset (List.insertionSort azConfGe l) ([], []) x hx with h | h
  · exact absurd h (List.not_mem_nil x)
  · exact (List.perm_insertionSort azConfGe l).mem_iff.mp h

/-- Every accepted entity of the fallback dedup fold is an initial state entity
or an element of the processed list. -/
theorem fbFoldl_fst_subset : ∀ (l : List AzEntity)
    (st : List AzEntity × List (ℤ × ℤ)) (x : AzEntity),
    x ∈ (l.foldl fbDedupStep st).1 → x ∈ st.1 ∨ x ∈ l := by
  intro l
  induction l with
  | nil =>
    intro st x hx
    exact Or.inl hx
  | cons e es ih =>
    intro st x hx
    rcases ih (fbDedupStep st e) x hx with h | h
    · unfold fbDedupStep at h
      split at h
      · exact Or.inl h
      · rcases List.mem_append.mp h with h2 | h2
        · exact Or.inl h2
        · exact Or.inr (List.mem_singleton.mp h2 ▸ List.mem_cons_self e es)
    · exact Or.inr (List.mem_cons_of_mem e h)

/-- The fallback-deduplicated list is a subset of the input list. -/
theorem fbDedup_subset {l : List AzEntity} {x : AzEntity}
    (hx : x ∈ fbDedup l) : x ∈ l := by
  unfold fbDedup at hx
  rcases fbFoldl_fst_subset (List.insertionSort fbKeyLe l) ([], []) x hx with h | h
  · exact absurd h (List.not_mem_nil x)
  · exact (List.perm_insertionSort fbKeyLe l).mem_iff.mp h

/-- Every entity collected from the Azure provider loop passed the confidence
threshold test. -/
theorem azCollect_conf : ∀ (threshold : ℚ)
    (l : List (List Char × Except Unit (List AzEntity))) (adj : ℤ) (e : AzEntity),
    e ∈ azCollect threshold l adj → threshold ≤ e.confidence_score := by
  intro threshold l
  induction l with
  | nil =>
    intro adj e he
    exact absurd he (List.not_mem_nil e)
  | cons p rest ih =>
    intro adj e he
    rcases p with ⟨chunk, res⟩
    cases res with
    | error u =>
      exact absurd he (List.not_mem_nil e)
    | ok es =>
      simp only [azCollect] at he
      rcases List.mem_append.mp he with h | h
      · rcases List.mem_map.mp h with ⟨e0, he0, heq⟩
        have := (List.mem_filter.mp he0).2
        subst heq
        exact of_decide_eq_true this
      · exact ih (adj + (chunk.length : ℤ)) e h

/-- Every entity produced by the regex fallback carries confidence 0.95. -/
theorem fallbackDetection_conf {ms : List FallbackMatch} {e : AzEntity}
    (he : e ∈ fallbackDetection ms) : e.confidence_score = 95 / 100 := by
  unfold fallbackDetection at he
  rcases List.mem_map.mp (fbDedup_subset he) with ⟨m, _, heq⟩
  subst heq
  rfl

/-- Counterexample to claim C3 as stated: with a configured confidence
threshold of 0.99 the Azure hybrid detector still returns a regex-branch
entity of fixed confidence 0.95, because `_fallback_detection` never applies
the threshold (azure_ai_redactor.py lines 213-221). -/
theorem claim3_counterexample :
    ∃ e ∈ azDetectCore (99 / 100) [] [⟨"phone", "555-123-4567", 7⟩],
      ¬ ((99 : ℚ) / 100 ≤ e.confidence_score) := by
  refine ⟨mkFallbackEntity ⟨"phone", "555-123-4567", 7⟩, ?_, ?_⟩
  · simp [azDetectCore, azCollect, fallbackDetection, fbDedup, azMerge,
      List.insertionSort, fbDedupStep, azMergeStep]
  · norm_num [mkFallbackEntity]

/-- Amended claim C3: every entity returned by the GPT-4o detector core has
confidence at least the configured threshold; every entity returned by the
Azure hybrid detector core has confidence at least the minimum of the threshold
and the regex branch's fixed confidence 0.95 (the bound degrades to 0.95 when
the threshold exceeds it). -/
theorem claim3_confidence_threshold :
    (∀ (threshold : ℚ) (overlapSize : ℕ) (chunks : List (List Char))
        (results : List ChunkResult) (e : GptEntity),
        e ∈ gptDetectCore threshold overlapSize chunks results →
        threshold ≤ e.confidence) ∧
    (∀ (threshold : ℚ) (chunkResults : List (List Char × Except Unit (List AzEntity)))
        (ms : List FallbackMatch) (e : AzEntity),
        e ∈ azDetectCore threshold chunkResults ms →
        min threshold (95 / 100) ≤ e.confidence_score) := by
  constructor
  · intro threshold overlapSize chunks results e he
    have he2 := gptDedup_subset he
    rcases List.mem_flatten.mp he2 with ⟨contrib, hc, hec⟩
    rcases List.mem_map.mp hc with ⟨p, _, heq⟩
    subst heq
    rcases p with ⟨i, r⟩
    cases r with
    | exn =>
      exact absurd hec (List.not_mem_nil e)
    | resp q =>
      simp only [gptChunkContribution] at hec
      rcases List.mem_map.mp hec with ⟨e0, he0, heq0⟩
      cases q with
      | ok es =>
        simp only [parseLLMResponse] at he0
        have := (List.mem_filter.mp he0).2
        subst heq0
        exact of_decide_eq_true this
      | noJson =>
        exact absurd he0 (List.not_mem_nil e0)
      | badJson =>
        exact absurd he0 (List.not_mem_nil e0)
      | noEntitiesKey =>
        exact absurd he0 (List.not_mem_nil e0)
  · intro threshold chunkResults ms e he
    unfold azDetectCore at he
    rcases List.mem_append.mp (azMerge_subset he) with h | h
    · exact le_trans (min_le_left _ _) (azCollect_conf threshold chunkResults 0 e h)
    · rw [fallbackDetection_conf h]
      exact min_le_right _ _

/-- Concrete instance of amended claim C3: a parsed GPT-4o entity of confidence
0.9 against threshold 0.5 survives with confidence at least the threshold. -/
theorem claim3_witness :
    (0 : ℚ) ≤ (⟨"a", "names", 1, 0, 1, "", ""⟩ : GptEntity).confidence :=
  claim3_confidence_threshold.1 0 0 []
    [ChunkResult.resp (LLMParse.ok [⟨"a", "names", 1, 0, 1, "", ""⟩])]
    ⟨"a", "names", 1, 0, 1, "", ""⟩ (by decide)

/-- Claim C7: a per-chunk provider failure never aborts detection and
contributes zero entities.  For the GPT-4o detector, replacing every failing
chunk outcome by its contribution-free parse gives exactly the merged entities
of the successfully processed chunks; for the Azure detector, all chunks after
the first failing one contribute nothing (the single `try` block ends the
collection loop there), and the final result is the merge of the entities of
the chunks processed before the failure with the regex entities. -/
theorem claim7_chunk_failure_isolated :
    (∀ (threshold : ℚ) (overlapSize : ℕ) (chunks : List (List Char))
        (results : List ChunkResult),
        gptDetectCore threshold overlapSize chunks results =
        gptDedup ((((List.range results.length).zip results).filterMap fun p =>
          match p.2 with
          | ChunkResult.exn => none
          | ChunkResult.resp q =>
              some (gptChunkContribution threshold
                (gptChunkStart overlapSize chunks p.1) (ChunkResult.resp q))).flatten)) ∧
    (∀ (threshold : ℚ) (pre post : List (List Char × Except Unit (List AzEntity)))
        (c : List Char) (u : Unit) (adj : ℤ),
        azCollect threshold (pre ++ (c, Except.error u) :: post) adj =
        azCollect threshold (pre ++ [(c, Except.error u)]) adj) ∧
    (∀ (threshold : ℚ) (pre post : List (List Char × Except Unit (List AzEntity)))
        (c : List Char) (u : Unit) (ms : List FallbackMatch),
        azDetectCore threshold (pre ++ (c, Except.error u) :: post) ms =
        azDetectCore threshold (pre ++ [(c, Except.error u)]) ms) := by
  have hcollect : ∀ (threshold : ℚ)
      (pre post : List (List Char × Except Unit (List AzEntity)))
      (c : List Char) (u : Unit) (adj : ℤ),
      azCollect threshold (pre ++ (c, Except.error u) :: post) adj =
      azCollect threshold (pre ++ [(c, Except.error u)]) adj := by
    intro threshold pre
    induction pre with
    | nil =>
      intro post c u adj
      rfl
    | cons p rest ih =>
      intro post c u adj
      rcases p with ⟨chunk, res⟩
      cases res with
      | error v =>
        rfl
      | ok es =>
        simp only [List.cons_append, azCollect]
        exact congrArg _ (ih post c u (adj + (chunk.length : ℤ)))
  refine ⟨?_, hcollect, ?_⟩
  · intro threshold overlapSize chunks results
    unfold gptDetectCore
    congr 1
    generalize (List.range results.length).zip results = pairs
    induction pairs with
    | nil =>
      rfl
    | cons p ps ih =>
      rcases p with ⟨i, r⟩
      cases r with
      | exn =>
        simpa only [List.map_cons, List.filterMap_cons, List.flatten_cons] using ih
      | resp q =>
        simp only [List.map_cons, List.filterMap_cons, List.flatten_cons]
        rw [ih]
  · intro threshold pre post c u ms
    unfold azDetectCore
    rw [hcollect threshold pre post c u 0]

/-- Concrete instance of claim C9: one entity with an `ssn` confidence entry is
assessed `HIGH`. -/
theorem claim9_witness : assessRiskLevel 1 [("ssn", 1)] = "HIGH" :=
  (claim9_assess_risk_level 1 [("ssn", 1)]).2 (by decide) (Or.inl (by decide))

/-! Claim C2. -/

/-- The claim's non-overlap relation on GPT entities:
`not (a.start < b.end and b.start < a.end)`. -/
def gptDisjoint (a b : GptEntity) : Prop :=
  ¬ (a.start_pos < b.end_pos ∧ b.start_pos < a.end_pos)

instance : DecidableRel gptDisjoint := fun a b => by
  unfold gptDisjoint; infer_instance

/-- The claim's non-overlap relation on Azure entities, with `end` being
`offset + length`. -/
def azDisjoint (a b : AzEntity) : Prop :=
  ¬ (a.offset < b.offset + b.length ∧ b.offset < a.offset + a.length)

instance : DecidableRel azDisjoint := fun a b => by
  unfold azDisjoint; infer_instance

/-- Inserting an entity whose start is at least every accepted start preserves
pairwise disjointness: the new entity can overlap at most one accepted entity,
the one the replace branch removes. -/
theorem gptInsert_pairwise : ∀ (acc : List GptEntity) (e : GptEntity),
    acc.Pairwise gptDisjoint → (∀ a ∈ acc, a.start_pos ≤ e.start_pos) →
    (gptInsert acc e).Pairwise gptDisjoint := by
  intro acc
  induction acc with
  | nil =>
    intro e _ _
    simp [gptInsert]
  | cons x xs ih =>
    intro e hp hb
    simp only [gptInsert]
    split
    · next hov =>
      split
      · rw [List.pairwise_append]
        refine ⟨(List.pairwise_cons.mp hp).2, by simp, ?_⟩
        intro a ha e' he'
        rw [List.mem_singleton] at he'
        rw [he']
        have hxa : gptDisjoint x a := (List.pairwise_cons.mp hp).1 a ha
        have hbx : x.start_pos ≤ e.start_pos := hb x (List.mem_cons_self x xs)
        have hba : a.start_pos ≤ e.start_pos := hb a (List.mem_cons_of_mem x ha)
        unfold gptOverlap at hov
        unfold gptDisjoint at hxa ⊢
        omega
      · exact hp
    · next hnov =>
      rw [List.pairwise_cons]
      constructor
      · intro b hbmem
        rcases gptInsert_mem xs e b hbmem with h | h
        · exact (List.pairwise_cons.mp hp).1 b h
        · subst h
          unfold gptOverlap at hnov
          unfold gptDisjoint
          omega
      · exact ih e (List.pairwise_cons.mp hp).2
          fun a ha => hb a (List.mem_cons_of_mem x ha)

/-- Folding the deduplication insert over a start-sorted list keeps the
accumulator pairwise disjoint. -/
theorem gptFoldl_pairwise : ∀ (l acc : List GptEntity),
    l.Pairwise gptStartLe → acc.Pairwise gptDisjoint →
    (∀ a ∈ acc, ∀ b ∈ l, a.start_pos ≤ b.start_pos) →
    (l.foldl gptInsert acc).Pairwise gptDisjoint := by
  intro l
  induction l with
  | nil =>
    intro acc _ hacc _
    exact hacc
  | cons e es ih =>
    intro acc hsort hacc hb
    refine ih (gptInsert acc e) (List.pairwise_cons.mp hsort).2 ?_ ?_
    · exact gptInsert_pairwise acc e hacc fun a ha => hb a ha e (List.mem_cons_self e es)
    · intro a ha b hbmem
      rcases gptInsert_mem acc e a ha with h | h
      · exact hb a h b (List.mem_cons_of_mem e hbmem)
      · subst h
        exact (List.pairwise_cons.mp hsort).1 b hbmem

/-- The output of `_deduplicate_entities` is pairwise non-overlapping, for
every input list. -/
theorem gptDedup_pairwise (l : List GptEntity) : (gptDedup l).Pairwise gptDisjoint := by
  have hsym : ∀ {x y : GptEntity}, gptDisjoint x y → gptDisjoint y x := by
    intro x y h
    unfold gptDisjoint at h ⊢
    omega
  unfold gptDedup
  split
  · next h =>
    rw [List.isEmpty_iff] at h
    subst h
    simp
  · refine (List.Perm.pairwise_iff hsym
      (List.perm_insertionSort gptStartLe
        ((List.insertionSort gptStartLe l).foldl gptInsert []))).mpr ?_
    refine gptFoldl_pairwise _ [] ?_ List.Pairwise.nil ?_
    · exact List.sorted_insertionSort gptStartLe l
    · intro a ha
      exact absurd ha (List.not_mem_nil a)

/-- The set-based overlap test of the hybrid merge agrees with the arithmetic
overlap test on positive-length entities. -/
theorem azRangeOverlap_iff {e x : AzEntity} (he : 0 < e.length) (hx : 0 < x.length) :
    azRangeOverlap e (x.offset, x.offset + x.length) ↔ ¬ azDisjoint x e := by
  unfold azRangeOverlap azDisjoint
  rw [pyRange_inter_pos (by omega) (by omega)]
  constructor
  · intro h
    intro hc
    exact hc ⟨h.2, h.1⟩
  · intro h
    rw [not_not] at h
    exact ⟨h.2, h.1⟩

/-- The membership-based overlap test of the fallback dedup agrees with the
arithmetic overlap test on positive-length entities. -/
theorem fbRangeOverlap_iff {e x : AzEntity} (he : 0 < e.length) (hx : 0 < x.length) :
    fbRangeOverlap e (x.offset, x.offset + x.length) ↔ ¬ azDisjoint x e := by
  unfold fbRangeOverlap azDisjoint
  rw [pyRange_exists_mem (by omega) (by omega)]
  constructor
  · intro h
    intro hc
    exact hc ⟨h.1, h.2⟩
  · intro h
    rw [not_not] at h
    exact ⟨h.1, h.2⟩

/-- The hybrid merge fold keeps the accepted list pairwise disjoint when all
entities have positive length; the range list is the image of the accepted
list throughout. -/
theorem azFoldl_pairwise : ∀ (l uniq : List AzEntity),
    (∀ e ∈ l, 0 < e.length) → (∀ x ∈ uniq, 0 < x.length) →
    uniq.Pairwise azDisjoint →
    ((l.foldl azMergeStep
      (uniq, uniq.map fun x => (x.offset, x.offset + x.length))).1).Pairwise azDisjoint := by
  intro l
  induction l with
  | nil =>
    intro uniq _ _ hp
    exact hp
  | cons e es ih =>
    intro uniq hl huniq hp
    simp only [List.foldl_cons]
    by_cases hov : ((uniq.map fun x => (x.offset, x.offset + x.length)).any
        fun r => decide (azRangeOverlap e r)) = true
    · have hstep : azMergeStep (uniq, uniq.map fun x => (x.offset, x.offset + x.length)) e =
          (uniq, uniq.map fun x => (x.offset, x.offset + x.length)) := by
        unfold azMergeStep
        rw [if_pos hov]
      rw [hstep]
      exact ih uniq (fun x hx => hl x (List.mem_cons_of_mem e hx)) huniq hp
    · have hstep : azMergeStep (uniq, uniq.map fun x => (x.offset, x.offset + x.length)) e =
          (uniq ++ [e], (uniq ++ [e]).map fun x => (x.offset, x.offset + x.length)) := by
        unfold azMergeStep
        rw [if_neg hov]
        simp
      rw [hstep]
      have hepos : 0 < e.length := hl e (List.mem_cons_self e es)
      refine ih (uniq ++ [e]) (fun x hx => hl x (List.mem_cons_of_mem e hx)) ?_ ?_
      · intro x hx
        rcases List.mem_append.mp hx with h | h
        · exact huniq x h
        · rw [List.mem_singleton.mp h]
          exact hepos
      · rw [List.pairwise_append]
        refine ⟨hp, by simp, ?_⟩
        intro x hx e' he'
        rw [List.mem_singleton.mp he']
        simp only [List.any_eq_true, decide_eq_true_eq, not_exists] at hov
        push_neg at hov
        have hno := hov (x.offset, x.offset + x.length)
          (List.mem_map.mpr ⟨x, hx, rfl⟩)
        rw [azRangeOverlap_iff hepos (huniq x hx)] at hno
        rw [not_not] at hno
        exact hno

/-- The fallback dedup fold keeps the accepted list pairwise disjoint when all
entities have positive length. -/
theorem fbFoldl_pairwise : ∀ (l uniq : List AzEntity),
    (∀ e ∈ l, 0 < e.length) → (∀ x ∈ uniq, 0 < x.length) →
    uniq.Pairwise azDisjoint →
    ((l.foldl fbDedupStep
      (uniq, uniq.map fun x => (x.offset, x.offset + x.length))).1).Pairwise azDisjoint := by
  intro l
  induction l with
  | nil =>
    intro uniq _ _ hp
    exact hp
  | cons e es ih =>
    intro uniq hl huniq hp
    simp only [List.foldl_cons]
    by_cases hov : ((uniq.map fun x => (x.offset, x.offset + x.length)).any
        fun r => decide (fbRangeOverlap e r)) = true
    · have hstep : fbDedupStep (uniq, uniq.map fun x => (x.offset, x.offset + x.length)) e =
          (uniq, uniq.map fun x => (x.offset, x.offset + x.length)) := by
        unfold fbDedupStep
        rw [if_pos hov]
      rw [hstep]
      exact ih uniq (fun x hx => hl x (List.mem_cons_of_mem e hx)) huniq hp
    · have hstep : fbDedupStep (uniq, uniq.map fun x => (x.offset, x.offset + x.length)) e =
          (uniq ++ [e], (uniq ++ [e]).map fun x => (x.offset, x.offset + x.length)) := by
        unfold fbDedupStep
        rw [if_neg hov]
        simp
      rw [hstep]
      have hepos : 0 < e.length := hl e (List.mem_cons_self e es)
      refine ih (uniq ++ [e]) (fun x hx => hl x (List.mem_cons_of_mem e hx)) ?_ ?_
      · intro x hx
        rcases List.mem_append.mp hx with h | h
        · exact huniq x h
        · rw [List.mem_singleton.mp h]
          exact hepos
      · rw [List.pairwise_append]
        refine ⟨hp, by simp, ?_⟩
        intro x hx e' he'
        rw [List.mem_singleton.mp he']
        simp only [List.any_eq_true, decide_eq_true_eq, not_exists] at hov
        push_neg at hov
        have hno := hov (x.offset, x.offset + x.length)
          (List.mem_map.mpr ⟨x, hx, rfl⟩)
        rw [fbRangeOverlap_iff hepos (huniq x hx)] at hno
        rw [not_not] at hno
        exact hno

/-- Counterexample to claim C2 as stated: a zero-length entity slips through
the set-based overlap tests of both the hybrid merge and the regex dedup
(an empty Python `range` intersects nothing), so the output can contain two
entities that overlap under the claim's arithmetic test. -/
theorem claim2_counterexample :
    (∃ a ∈ azMerge [⟨"", "", none, 3, 5, 0⟩, ⟨"", "", none, 2, 4, 2⟩],
      ∃ b ∈ azMerge [⟨"", "", none, 3, 5, 0⟩, ⟨"", "", none, 2, 4, 2⟩],
        a ≠ b ∧ a.offset < b.offset + b.length ∧ b.offset < a.offset + a.length) ∧
    (∃ a ∈ fbDedup [⟨"", "", none, 3, 5, 0⟩, ⟨"", "", none, 2, 4, 2⟩],
      ∃ b ∈ fbDedup [⟨"", "", none, 3, 5, 0⟩, ⟨"", "", none, 2, 4, 2⟩],
        a ≠ b ∧ a.offset < b.offset + b.length ∧ b.offset < a.offset + a.length) := by
  decide

/-- Amended claim C2: the output of `_deduplicate_entities` is pairwise
non-overlapping for every input; the outputs of the hybrid merge and of the
regex dedup are pairwise non-overlapping for every input whose entities all
have positive length (zero-length entities defeat their set-based tests). -/
theorem claim2_no_overlap_invariant :
    (∀ entities : List GptEntity, (gptDedup entities).Pairwise gptDisjoint) ∧
    (∀ entities : List AzEntity, (∀ e ∈ entities, 0 < e.length) →
      (azMerge entities).Pairwise azDisjoint) ∧
    (∀ entities : List AzEntity, (∀ e ∈ entities, 0 < e.length) →
      (fbDedup entities).Pairwise azDisjoint) := by
  refine ⟨gptDedup_pairwise, ?_, ?_⟩
  · intro entities hpos
    unfold azMerge
    have := azFoldl_pairwise (List.insertionSort azConfGe entities) []
      (fun e he => hpos e ((List.perm_insertionSort azConfGe entities).mem_iff.mp he))
      (fun x hx => absurd hx (List.not_mem_nil x)) List.Pairwise.nil
    simpa using this
  · intro entities hpos
    unfold fbDedup
    have := fbFoldl_pairwise (List.insertionSort fbKeyLe entities) []
      (fun e he => hpos e ((List.perm_insertionSort fbKeyLe entities).mem_iff.mp he))
      (fun x hx => absurd hx (List.not_mem_nil x)) List.Pairwise.nil
    simpa using this

/-- Concrete instance of amended claim C2: two positive-length entities are
merged into pairwise non-overlapping outputs by all three routines. -/
theorem claim2_witness :
    (∀ e ∈ [(⟨"", "", none, 2, 0, 4⟩ : AzEntity), ⟨"", "", none, 3, 3, 5⟩],
      0 < e.length) ∧
    (gptDedup [⟨"", "", 2, 0, 4, "", ""⟩, ⟨"", "", 3, 3, 8, "", ""⟩]).Pairwise gptDisjoint ∧
    (azMerge [⟨"", "", none, 2, 0, 4⟩, ⟨"", "", none, 3, 3, 5⟩]).Pairwise azDisjoint ∧
    (fbDedup [⟨"", "", none, 2, 0, 4⟩, ⟨"", "", none, 3, 3, 5⟩]).Pairwise azDisjoint :=
  ⟨by decide,
    claim2_no_overlap_invariant.1 [⟨"", "", 2, 0, 4, "", ""⟩, ⟨"", "", 3, 3, 8, "", ""⟩],
    claim2_no_overlap_invariant.2.1 [⟨"", "", none, 2, 0, 4⟩, ⟨"", "", none, 3, 3, 5⟩]
      (by decide),
    claim2_no_overlap_invariant.2.2 [⟨"", "", none, 2, 0, 4⟩, ⟨"", "", none, 3, 3, 5⟩]
      (by decide)⟩

/-! Claim C1. -/

/-- Counterexample to claim C1 as stated: `_deduplicate_entities` sorts by
position, not confidence, and its remove-and-replace branch discards an
accepted lower-confidence entity without reconsidering candidates it had
previously blocked.  On spans `[0,4)`, `[3,8)`, `[7,12)` with confidences
`1 < 2 < 3` the code keeps only the `[7,12)` entity, while the spec's
confidence-first greedy walk keeps `[0,4)` and `[7,12)`. -/
theorem claim1_counterexample :
    gptDedup [⟨"", "", 1, 0, 4, "", ""⟩, ⟨"", "", 2, 3, 8, "", ""⟩,
        ⟨"", "", 3, 7, 12, "", ""⟩] ≠
      specMerge GptEntity.confidence GptEntity.start_pos GptEntity.end_pos
        [⟨"", "", 1, 0, 4, "", ""⟩, ⟨"", "", 2, 3, 8, "", ""⟩,
          ⟨"", "", 3, 7, 12, "", ""⟩] := by
  decide

/-- A Boolean `any` over a mapped list agrees with an `any` whose predicate
matches the composite on every member. -/
theorem any_map_congr {α β : Type} (g : α → β) :
    ∀ (l : List α) (p : β → Bool) (q : α → Bool),
    (∀ x ∈ l, p (g x) = q x) → (l.map g).any p = l.any q := by
  intro l
  induction l with
  | nil =>
    intro p q _
    rfl
  | cons x xs ih =>
    intro p q h
    simp only [List.map_cons, List.any_cons]
    rw [h x (List.mem_cons_self x xs), ih p q fun y hy => h y (List.mem_cons_of_mem x hy)]

/-- With pairwise distinct confidence scores, the hybrid merge's sort by
confidence descending produces the same list as the spec's sort by confidence
descending with ties broken by earliest start. -/
theorem azSort_eq_specSort (l : List AzEntity)
    (hconf : l.Pairwise fun a b => a.confidence_score ≠ b.confidence_score) :
    List.insertionSort azConfGe l =
      List.insertionSort (specSortLe AzEntity.confidence_score AzEntity.offset) l := by
  have hperm : List.Perm (List.insertionSort azConfGe l)
      (List.insertionSort (specSortLe AzEntity.confidence_score AzEntity.offset) l) :=
    (List.perm_insertionSort azConfGe l).trans
      (List.perm_insertionSort (specSortLe AzEntity.confidence_score AzEntity.offset) l).symm
  have h1 : (List.insertionSort azConfGe l).Pairwise azConfGe :=
    List.sorted_insertionSort azConfGe l
  have h2 : (List.insertionSort
      (specSortLe AzEntity.confidence_score AzEntity.offset) l).Pairwise azConfGe := by
    refine List.Pairwise.imp ?_
      (List.sorted_insertionSort (specSortLe AzEntity.confidence_score AzEntity.offset) l)
    intro a b hab
    rcases hab with h | ⟨he, _⟩
    · exact le_of_lt h
    · exact le_of_eq he.symm
  refine perm_sorted_unique _ _ hperm h1 h2 ?_
  intro a b ha hb hab hba
  by_contra hne
  have hmem : ∀ x, x ∈ List.insertionSort azConfGe l → x ∈ l := fun x hx =>
    (List.perm_insertionSort azConfGe l).mem_iff.mp hx
  have hsymm : Symmetric fun a b : AzEntity =>
      a.confidence_score ≠ b.confidence_score := fun _ _ h => Ne.symm h
  have hdist := List.Pairwise.forall hsymm hconf (hmem a ha) (hmem b hb) hne
  exact hdist (le_antisymm hba hab)

/-- Over positive-length entities, the hybrid merge loop computes exactly the
spec's greedy acceptance walk. -/
theorem azWalk_agree : ∀ (s uniq : List AzEntity),
    (∀ e ∈ s, 0 < e.length) → (∀ x ∈ uniq, 0 < x.length) →
    (s.foldl azMergeStep
      (uniq, uniq.map fun x => (x.offset, x.offset + x.length))).1 =
    specWalk AzEntity.offset (fun e => e.offset + e.length) uniq s := by
  intro s
  induction s with
  | nil =>
    intro uniq _ _
    rfl
  | cons e es ih =>
    intro uniq hs huniq
    have hepos : 0 < e.length := hs e (List.mem_cons_self e es)
    have hcond : ((uniq.map fun x => (x.offset, x.offset + x.length)).any
        fun r => decide (azRangeOverlap e r)) =
        (uniq.any fun x => decide (specIntersects AzEntity.offset
          (fun e2 => e2.offset + e2.length) x e)) := by
      refine any_map_congr _ uniq _ _ ?_
      intro x hx
      rw [decide_eq_decide]
      rw [azRangeOverlap_iff hepos (huniq x hx)]
      unfold azDisjoint specIntersects
      rw [not_not]
    simp only [List.foldl_cons, specWalk]
    by_cases hc : (uniq.any fun x => decide (specIntersects AzEntity.offset
        (fun e2 => e2.offset + e2.length) x e)) = true
    · rw [if_pos hc]
      have hstep : azMergeStep (uniq, uniq.map fun x => (x.offset, x.offset + x.length)) e =
          (uniq, uniq.map fun x => (x.offset, x.offset + x.length)) := by
        unfold azMergeStep
        rw [hcond, if_pos hc]
      rw [hstep]
      exact ih uniq (fun x hx => hs x (List.mem_cons_of_mem e hx)) huniq
    · rw [if_neg hc]
      have hstep : azMergeStep (uniq, uniq.map fun x => (x.offset, x.offset + x.length)) e =
          (uniq ++ [e], (uniq ++ [e]).map fun x => (x.offset, x.offset + x.length)) := by
        unfold azMergeStep
        rw [hcond, if_neg hc]
        simp
      rw [hstep]
      refine ih (uniq ++ [e]) (fun x hx => hs x (List.mem_cons_of_mem e hx)) ?_
      intro x hx
      rcases List.mem_append.mp hx with h | h
      · exact huniq x h
      · rw [List.mem_singleton.mp h]
        exact hepos

/-- Amended claim C1: the hybrid merge of `AzureAIRedactor.detect_pii_entities`
computes the spec's confidence-first greedy algorithm up to the spec's final
re-sort — re-sorting the merge output by start ascending gives exactly the
spec's result — provided all candidate confidences are distinct (the code
breaks ties by input order, the spec by earliest start) and all lengths are
positive (the code's set-based overlap test ignores empty ranges).
`GPT4oMiniRedactor._deduplicate_entities` implements a different,
position-sorted replace-on-higher-confidence algorithm. -/
theorem claim1_azure_merge_refines_spec (entities : List AzEntity)
    (hconf : entities.Pairwise fun a b => a.confidence_score ≠ b.confidence_score)
    (hpos : ∀ e ∈ entities, 0 < e.length) :
    List.insertionSort (specStartLe AzEntity.offset) (azMerge entities) =
      specMerge AzEntity.confidence_score AzEntity.offset
        (fun e => e.offset + e.length) entities := by
  unfold azMerge specMerge
  rw [azSort_eq_specSort entities hconf]
  congr 1
  have := azWalk_agree
    (List.insertionSort (specSortLe AzEntity.confidence_score AzEntity.offset) entities) []
    (fun e he => hpos e
      ((List.perm_insertionSort (specSortLe AzEntity.confidence_score AzEntity.offset)
        entities).mem_iff.mp he))
    (fun x hx => absurd hx (List.not_mem_nil x))
  simpa using this

/-- Concrete instance of amended claim C1: on two overlapping entities with
distinct confidences and positive lengths, the re-sorted hybrid merge equals
the spec's greedy merge. -/
theorem claim1_witness :
    (([(⟨"", "", none, 2, 0, 4⟩ : AzEntity), ⟨"", "", none, 3, 3, 5⟩] :
        List AzEntity).Pairwise fun a b => a.confidence_score ≠ b.confidence_score) ∧
    (∀ e ∈ [(⟨"", "", none, 2, 0, 4⟩ : AzEntity), ⟨"", "", none, 3, 3, 5⟩],
      0 < e.length) ∧
    List.insertionSort (specStartLe AzEntity.offset)
        (azMerge [⟨"", "", none, 2, 0, 4⟩, ⟨"", "", none, 3, 3, 5⟩]) =
      specMerge AzEntity.confidence_score AzEntity.offset
        (fun e => e.offset + e.length)
        [⟨"", "", none, 2, 0, 4⟩, ⟨"", "", none, 3, 3, 5⟩] :=
  ⟨by decide, by decide,
    claim1_azure_merge_refines_spec
      [⟨"", "", none, 2, 0, 4⟩, ⟨"", "", none, 3, 3, 5⟩] (by decide) (by decide)⟩

/-! Claims C4 and C5: chunker lemmas. -/

/-- Minimal distance from the scanner position to any emitted match end, by
scanner state. -/
def sbStateOff : SBState → ℕ
  | SBState.idle => 2
  | SBState.afterTerm => 1
  | SBState.inRun => 0

/-- Every value emitted by the sentence-break scanner lies between the earliest
position a match open in the current state could end and the end of the
scanned text. -/
theorem sbScan_bounds : ∀ (s : List Char) (pos : ℕ) (st : SBState) (b : ℕ),
    b ∈ sbScan s pos st → pos + sbStateOff st ≤ b ∧ b ≤ pos + s.length := by
  intro s
  induction s with
  | nil =>
    intro pos st b hb
    cases st <;> simp [sbScan] at hb
    subst hb
    simp [sbStateOff]
  | cons c rest ih =>
    intro pos st b hb
    cases st with
    | idle =>
      simp only [sbScan] at hb
      split at hb
      · have := ih (pos + 1) SBState.afterTerm b hb
        simp only [sbStateOff] at this ⊢
        simp only [List.length_cons]
        omega
      · have := ih (pos + 1) SBState.idle b hb
        simp only [sbStateOff] at this ⊢
        simp only [List.length_cons]
        omega
    | afterTerm =>
      simp only [sbScan] at hb
      split at hb
      · have := ih (pos + 1) SBState.inRun b hb
        simp only [sbStateOff] at this ⊢
        simp only [List.length_cons]
        omega
      · split at hb
        · have := ih (pos + 1) SBState.afterTerm b hb
          simp only [sbStateOff] at this ⊢
          simp only [List.length_cons]
          omega
        · have := ih (pos + 1) SBState.idle b hb
          simp only [sbStateOff] at this ⊢
          simp only [List.length_cons]
          omega
    | inRun =>
      simp only [sbScan] at hb
      split at hb
      · have := ih (pos + 1) SBState.inRun b hb
        simp only [sbStateOff] at this ⊢
        simp only [List.length_cons]
        omega
      · rcases List.mem_cons.mp hb with h | h
        · subst h
          simp only [sbStateOff, List.length_cons]
          omega
        · split at h
          · have := ih (pos + 1) SBState.afterTerm b h
            simp only [sbStateOff] at this ⊢
            simp only [List.length_cons]
            omega
          · have := ih (pos + 1) SBState.idle b h
            simp only [sbStateOff] at this ⊢
            simp only [List.length_cons]
            omega

/-- Every sentence-break end position lies in `[2, length]`. -/
theorem sentenceBreaks_bounds {s : List Char} {b : ℕ} (hb : b ∈ sentenceBreaks s) :
    2 ≤ b ∧ b ≤ s.length := by
  have := sbScan_bounds s 0 SBState.idle b hb
  simpa [sbStateOff] using this

/-- Under the configuration constraint `overlap_size < chunk_size - 100`, each
chunk's effective end leaves room for the next chunk to start strictly after
the current one even after the overlap is subtracted. -/
theorem chunkEnd_lb (cs ov : ℕ) (text : List Char) (start : ℕ)
    (hcs : 100 + ov < cs) :
    start + ov + 3 ≤ chunkEnd cs text start := by
  unfold chunkEnd
  split
  · split
    · next b hb =>
      have hbs := sentenceBreaks_bounds (List.mem_of_getLast?_eq_some hb)
      have hmax : max (start + cs - 100) start = start + cs - 100 :=
        Nat.max_eq_left (by omega)
      rw [hmax]
      omega
    · omega
  · omega

/-- Well-formed span lists produced by the chunking loop from a given start:
the head span starts at `start`; every non-final span ends before the text's
end, exceeds its start by more than the overlap, and is followed by the spans
of the next start `end - overlap`; the final span ends exactly at the text's
end. -/
inductive GoodSpans (len ov : ℕ) : ℕ → List (ℕ × ℕ) → Prop
  | last (start e : ℕ) : start < e → e = len →
      GoodSpans len ov start [(start, e)]
  | step (start e : ℕ) (rest : List (ℕ × ℕ)) : start + ov < e → e < len →
      GoodSpans len ov (e - ov) rest →
      GoodSpans len ov start ((start, e) :: rest)

/-- With valid configuration and sufficient fuel, the chunk loop produces a
well-formed span list. -/
theorem chunkLoop_good (cs ov : ℕ) (text : List Char) (hcs : 100 + ov < cs) :
    ∀ (fuel start : ℕ), start < text.length → text.length ≤ start + fuel →
      GoodSpans text.length ov start (chunkLoop cs ov text fuel start) := by
  intro fuel
  induction fuel with
  | zero =>
    intro start h1 h2
    omega
  | succ n ih =>
    intro start h1 h2
    have hlb := chunkEnd_lb cs ov text start hcs
    simp only [chunkLoop]
    rw [if_pos h1]
    by_cases he : chunkEnd cs text start < text.length
    · rw [if_pos he]
      refine GoodSpans.step start (chunkEnd cs text start) _ (by omega) he ?_
      exact ih (chunkEnd cs text start - ov) (by omega) (by omega)
    · rw [if_neg he]
      exact GoodSpans.last start text.length h1 rfl

/-- A well-formed span list is nonempty. -/
theorem goodSpans_ne_nil {len ov start : ℕ} {spans : List (ℕ × ℕ)}
    (h : GoodSpans len ov start spans) : spans ≠ [] := by
  cases h <;> simp

/-- The head of a well-formed span list starts at the given start. -/
theorem goodSpans_head {len ov start : ℕ} {spans : List (ℕ × ℕ)}
    (h : GoodSpans len ov start spans) :
    ∀ sp, spans.head? = some sp → sp.1 = start := by
  intro sp hsp
  cases h <;> simp_all <;> rw [← hsp]

/-- Every span of a well-formed span list is nonempty and ends within the
text. -/
theorem goodSpans_bounds {len ov : ℕ} : ∀ {start : ℕ} {spans : List (ℕ × ℕ)},
    GoodSpans len ov start spans → ∀ sp ∈ spans, sp.1 < sp.2 ∧ sp.2 ≤ len := by
  intro start spans h
  induction h with
  | last s e hlt he =>
    intro sp hsp
    rw [List.mem_singleton.mp hsp]
    exact ⟨hlt, le_of_eq he⟩
  | step s e rest hlt hlen _ ih =>
    intro sp hsp
    rcases List.mem_cons.mp hsp with h2 | h2
    · rw [h2]
      exact ⟨by omega, le_of_lt hlen⟩
    · exact ih sp h2

/-- The last span of a well-formed span list ends at the text's end. -/
theorem goodSpans_last {len ov : ℕ} : ∀ {start : ℕ} {spans : List (ℕ × ℕ)},
    GoodSpans len ov start spans → ∀ sp, spans.getLast? = some sp → sp.2 = len := by
  intro start spans h
  induction h with
  | last s e hlt he =>
    intro sp hsp
    simp only [List.getLast?_singleton, Option.some.injEq] at hsp
    rw [← hsp]
    exact he
  | step s e rest hlt hlen hrest ih =>
    intro sp hsp
    cases rest with
    | nil => exact absurd rfl (goodSpans_ne_nil hrest)
    | cons r rs =>
      rw [List.getLast?_cons_cons] at hsp
      exact ih sp hsp

/-- Consecutive spans of a well-formed span list meet or overlap: each span
starts no later than the previous span's end. -/
theorem goodSpans_chain {len ov : ℕ} : ∀ {start : ℕ} {spans : List (ℕ × ℕ)},
    GoodSpans len ov start spans → spans.Chain' fun a b => b.1 ≤ a.2 := by
  intro start spans h
  induction h with
  | last s e hlt he =>
    simp
  | step s e rest hlt hlen hrest ih =>
    refine List.chain'_cons'.mpr ⟨?_, ih⟩
    intro y hy
    rw [goodSpans_head hrest y hy]
    omega

/-- Every text position from the start of a well-formed span list to the end
of the text is covered by some span. -/
theorem goodSpans_cover {len ov : ℕ} : ∀ {start : ℕ} {spans : List (ℕ × ℕ)},
    GoodSpans len ov start spans → ∀ p, start ≤ p → p < len →
      ∃ sp ∈ spans, sp.1 ≤ p ∧ p < sp.2 := by
  intro start spans h
  induction h with
  | last s e hlt he =>
    intro p hp1 hp2
    exact ⟨(s, e), List.mem_singleton_self _, hp1, by omega⟩
  | step s e rest hlt hlen hrest ih =>
    intro p hp1 hp2
    by_cases hpe : p < e
    · exact ⟨(s, e), List.mem_cons_self _ _, hp1, hpe⟩
    · rcases ih p (by omega) hp2 with ⟨sp, hsp, h1, h2⟩
      exact ⟨sp, List.mem_cons_of_mem _ hsp, h1, h2⟩

/-- The start of the `i`-th span of a well-formed span list equals the list's
start plus the sum, over the preceding spans, of the produced chunk's length
minus the overlap — the quantity `detect_pii_entities` recomputes. -/
theorem goodSpans_start_sum {len ov : ℕ} (text : List Char) (htext : text.length = len) :
    ∀ {start : ℕ} {spans : List (ℕ × ℕ)}, GoodSpans len ov start spans →
    ∀ (i : ℕ) (sp : ℕ × ℕ), spans[i]? = some sp →
    (sp.1 : ℤ) = (start : ℤ) +
      (((spans.take i).map fun q =>
        ((((text.drop q.1).take (q.2 - q.1)).length : ℤ) - (ov : ℤ))).sum) := by
  intro start spans h
  induction h with
  | last s e hlt he =>
    intro i sp hsp
    cases i with
    | zero =>
      rw [List.getElem?_cons_zero, Option.some.injEq] at hsp
      rw [← hsp]
      simp
    | succ k =>
      rw [List.getElem?_cons_succ] at hsp
      simp at hsp
  | step s e rest hlt hlen hrest ih =>
    intro i sp hsp
    cases i with
    | zero =>
      rw [List.getElem?_cons_zero, Option.some.injEq] at hsp
      rw [← hsp]
      simp
    | succ k =>
      rw [List.getElem?_cons_succ] at hsp
      have hih := ih k sp hsp
      rw [List.take_succ_cons, List.map_cons, List.sum_cons]
      have hslice : ((text.drop s).take (e - s)).length = e - s := by
        rw [List.length_take, List.length_drop, htext]
        omega
      rw [hslice, hih]
      omega

/-- Claim C4: for valid configuration, the `chunk_start` value recomputed by
`detect_pii_entities` from chunk lengths — the sum over preceding chunks of
`len(chunk) - overlap_size` — equals the true start offset of each chunk in
the original text. -/
theorem claim4_chunk_start_recomputation (cs ov : ℕ) (text : List Char)
    (hcs : 100 + ov < cs) (i : ℕ) (sp : ℕ × ℕ)
    (hsp : (chunkSpans cs ov text)[i]? = some sp) :
    (sp.1 : ℤ) = gptChunkStart ov (chunkText cs ov text) i := by
  unfold gptChunkStart chunkText
  rw [List.map_take, List.map_map]
  unfold chunkSpans at hsp ⊢
  by_cases hsmall : text.length ≤ cs
  · rw [if_pos hsmall] at hsp ⊢
    cases i with
    | zero =>
      rw [List.getElem?_cons_zero, Option.some.injEq] at hsp
      rw [← hsp]
      simp
    | succ k =>
      rw [List.getElem?_cons_succ] at hsp
      simp at hsp
  · rw [if_neg hsmall] at hsp ⊢
    have hgood := chunkLoop_good cs ov text hcs text.length 0 (by omega) (by omega)
    have hsum := goodSpans_start_sum text rfl hgood i sp hsp
    simp only [Nat.cast_zero, zero_add] at hsum
    rw [hsum, ← List.map_take]
    rfl

/-- Concrete instance of claim C4: with chunk size 101 and overlap 0 on a
103-character text the second chunk's true start 101 equals the recomputed
chunk start. -/
theorem claim4_witness :
    (100 + 0 < 101) ∧
    ((101 : ℤ) =
      gptChunkStart 0 (chunkText 101 0 (List.replicate 103 'a')) 1) :=
  ⟨by omega,
    claim4_chunk_start_recomputation 101 0 (List.replicate 103 'a') (by omega) 1
      (101, 103) (by decide)⟩

/-- Claim C5: for valid configuration the chunk spans cover the whole text:
the list is nonempty, the first chunk starts at offset 0, each chunk starts at
or before the previous chunk's end, the last chunk ends at the text's length,
every character position lies inside some chunk, and each produced chunk is
the contiguous slice of the text at its span. -/
theorem claim5_chunk_coverage (cs ov : ℕ) (text : List Char)
    (_hcs0 : 0 < cs) (hcs : 100 + ov < cs) :
    (chunkSpans cs ov text ≠ []) ∧
    (∀ sp, (chunkSpans cs ov text).head? = some sp → sp.1 = 0) ∧
    ((chunkSpans cs ov text).Chain' fun a b => b.1 ≤ a.2) ∧
    (∀ sp, (chunkSpans cs ov text).getLast? = some sp → sp.2 = text.length) ∧
    (∀ p, p < text.length → ∃ sp ∈ chunkSpans cs ov text, sp.1 ≤ p ∧ p < sp.2) ∧
    (chunkText cs ov text =
      (chunkSpans cs ov text).map fun p => (text.drop p.1).take (p.2 - p.1)) := by
  by_cases hsmall : text.length ≤ cs
  · have hspans : chunkSpans cs ov text = [(0, text.length)] := by
      unfold chunkSpans
      rw [if_pos hsmall]
    refine ⟨by rw [hspans]; simp, ?_, ?_, ?_, ?_, rfl⟩
    · intro sp hsp
      rw [hspans] at hsp
      simp only [List.head?_cons, Option.some.injEq] at hsp
      rw [← hsp]
    · rw [hspans]
      simp
    · intro sp hsp
      rw [hspans] at hsp
      simp only [List.getLast?_singleton, Option.some.injEq] at hsp
      rw [← hsp]
    · intro p hp
      rw [hspans]
      exact ⟨(0, text.length), List.mem_singleton_self _, by omega, hp⟩
  · have hspans : chunkSpans cs ov text = chunkLoop cs ov text text.length 0 := by
      unfold chunkSpans
      rw [if_neg hsmall]
    have hgood := chunkLoop_good cs ov text hcs text.length 0 (by omega) (by omega)
    rw [hspans]
    exact ⟨goodSpans_ne_nil hgood, goodSpans_head hgood, goodSpans_chain hgood,
      goodSpans_last hgood, fun p hp => goodSpans_cover hgood p (by omega) hp,
      by rw [← hspans]; rfl⟩

/-- Concrete instance of claim C5: with chunk size 101 and overlap 0 on a
103-character text, position 102 is covered by a chunk span. -/
theorem claim5_witness :
    (0 < 101 ∧ 100 + 0 < 101) ∧
    (∃ sp ∈ chunkSpans 101 0 (List.replicate 103 'a'), sp.1 ≤ 102 ∧ 102 < sp.2) :=
  ⟨⟨by omega, by omega⟩,
    (claim5_chunk_coverage 101 0 (List.replicate 103 'a') (by omega)
      (by omega)).2.2.2.2.1 102 (by decide)⟩
